import Mathlib

/-!
Verification of the core of `src/app.rs` (rsdicombrowser): a shallow
embedding of the file classifier, tree synthesizer, dump cache and
search/navigation engine, together with theorems settling the spec's
claims about them.

Modelling conventions:
* A filesystem path (`PathBuf`) is its list of components (`Path := List String`);
  `Path::parent` is `List.dropLast`, `Path::starts_with` is `List.isPrefixOf`,
  `Path::strip_prefix` is `List.drop` (guarded by the same `starts_with` test
  the source performs), `Path::file_name` is `List.getLast?`.
* The `HashMap<PathBuf, String>` dump cache is an association list with
  `cacheGet` lookup; `HashMap::entry(..).or_insert_with(..)` is
  `cacheGetOrBuild`, instrumented with a `Bool` recording whether the
  external renderer closure was invoked (the observable "re-parse" effect).
* External collaborators (the directory scan, `open_file`, the dicom-dump
  renderer) are parameters of the operations that call them.
* `regex::RegexBuilder::new(&regex::escape(q)).case_insensitive(true)` /
  `Regex::is_match(line)` — matching an escaped (hence literal) pattern
  case-insensitively — is modelled as case-folded substring containment
  (`lineMatches`); the escaped empty pattern matches every line, which the
  model reproduces (`containsSub [] hay = true`).
-/

/-- A filesystem path, as its list of components. -/
abbrev FsPath := List String

/-- `rsdirtreebuilder::dir_tree_builder::PathSizeInfo`: one record of the
external recursive directory scan. -/
structure PathSizeInfo where
  path : FsPath
  is_dir : Bool
deriving DecidableEq, Repr

/-- The tree-builder protocol events issued by `build_ui_treeview` to the
`egui_ltreeview::TreeViewBuilder` collaborator: `builder.dir(id, label)`,
`builder.leaf(id, label)` and `builder.close_dir()`. -/
inductive TreeEvent where
  | OpenDir (path : FsPath) (label : String)
  | Leaf (path : FsPath) (label : String)
  | CloseDir
deriving DecidableEq, Repr

/-- The application state struct `TemplateApp` (the egui scaffolding fields
are outside the core; the dump cache `HashMap` is an association list). -/
structure TemplateApp where
  base_dir : FsPath
  dicom_files : List PathSizeInfo
  selected_file : Option FsPath
  search_input : String
  dicom_dump : List (FsPath × String)
  matched_pos : Option Nat
  scroll_pos : Option Nat
  search_results : Option (List Nat)
deriving DecidableEq

/-- `TemplateApp::new`: the initial state (lines 37–46 of `app.rs`). -/
def initApp : TemplateApp :=
  { base_dir := []
    dicom_files := []
    selected_file := none
    search_input := ""
    dicom_dump := []
    matched_pos := none
    scroll_pos := none
    search_results := none }

/-- Association-list lookup modelling `HashMap::get`. -/
def cacheGet (m : List (FsPath × String)) (k : FsPath) : Option String :=
  match m with
  | [] => none
  | (k', v) :: rest => if k' = k then some v else cacheGet rest k

/-- The full path rendered as one string, modelling `Path::as_os_str` /
`Path::display` (components joined by the separator). -/
def pathKey (p : FsPath) : String := String.intercalate "/" p

/-- Byte-wise (here: codepoint-wise) comparison of two character lists,
modelling `OsStr::cmp`'s ascending order. -/
def charsLe : List Char → List Char → Bool
  | [], _ => true
  | _ :: _, [] => false
  | a :: as, b :: bs => if a < b then true else if b < a then false else charsLe as bs

/-- `DumpOptions` configuration fields set by `handle_file_selected`
(lines 121–126 of `app.rs`): `.width(256)`, `.color_mode(Never)`,
`.no_limit(false)`, `.no_text_limit(false)`, `.format(Text)`. -/
structure DumpOptions where
  width : Nat
  color_mode_never : Bool
  no_limit : Bool
  no_text_limit : Bool
  format_text : Bool
deriving DecidableEq, Repr

/-- The exact `DumpOptions` value built in `handle_file_selected`. -/
def dumpOptionsUsed : DumpOptions :=
  { width := 256
    color_mode_never := true
    no_limit := false
    no_text_limit := false
    format_text := true }

/-- `HashMap::entry(p).or_insert_with(..)` as used in `handle_file_selected`
(lines 115–133): returns the updated cache, the entry's text, and whether the
external render closure was invoked. `render p = none` models `open_file`
failing (the closure then produces the empty string). -/
def cacheGetOrBuild (render : FsPath → Option String) (cache : List (FsPath × String))
    (p : FsPath) : List (FsPath × String) × String × Bool :=
  match cacheGet cache p with
  | some t => (cache, t, false)
  | none =>
    match render p with
    | some t => ((p, t) :: cache, t, true)
    | none => ((p, "") :: cache, "", true)

/-- `TemplateApp::get_dicom_dump` (lines 75–87): the cached dump of the
selected file, or `""` when nothing is selected or the cache has no entry. -/
def get_dicom_dump (app : TemplateApp) : String :=
  match app.selected_file with
  | none => ""
  | some f =>
    match cacheGet app.dicom_dump f with
    | some entry => entry
    | none => ""

/-- Case folding of a string to a character list, modelling the regex
engine's case-insensitive comparison. -/
def lowerChars (s : String) : List Char := s.data.map Char.toLower

/-- Substring containment on character lists: does `needle` occur
contiguously inside `hay`?  (`containsSub [] hay = true`, mirroring the
escaped empty regex pattern matching everywhere.) -/
def containsSub (needle : List Char) : List Char → Bool
  | [] => needle.isEmpty
  | c :: rest => needle.isPrefixOf (c :: rest) || containsSub needle rest

/-- The dump text as its list of lines (`text.split("\n")`), at the
character level: the text's characters split on the line-feed character. -/
def splitLines (text : String) : List (List Char) :=
  text.data.splitOn '\n'

/-- `regex.is_match(line)` for the case-insensitive escaped-literal regex
built from `query` in `TemplateApp::search`. -/
def lineMatches (query : String) (line : List Char) : Bool :=
  containsSub (lowerChars query) (line.map Char.toLower)

/-- `TemplateApp::search` (lines 137–157), with the dump text and the query
as explicit arguments: empty result for empty text, otherwise the indices of
the lines (split on `"\n"`) matched by the case-insensitive literal query. -/
def search (query text : String) : List Nat :=
  if text = "" then []
  else
    (((splitLines text).enum.filter (fun p => lineMatches query p.2)).map Prod.fst)

/-- `self.search()`: `search` applied to the app's query and current dump. -/
def searchSelf (app : TemplateApp) : List Nat :=
  search app.search_input (get_dicom_dump app)

/-- `TemplateApp::get_next_match` (lines 160–185), with the (already
computed) results list as an explicit argument, mirroring the source's
`expect` that `search_results` is `Some`. -/
def get_next_match (rs : List Nat) (mp : Option Nat) (forward_search : Bool) :
    Option Nat :=
  if forward_search then
    match mp with
    | none => rs.head?
    | some p =>
      match rs.getLast? with
      | some x => if x ≤ p then rs.head? else rs.find? (fun y => decide (p < y))
      | none => rs.find? (fun y => decide (p < y))
  else
    match mp with
    | none => rs.getLast?
    | some p =>
      match rs.head? with
      | some x => if p ≤ x then rs.getLast? else rs.reverse.find? (fun y => decide (y < p))
      | none => rs.reverse.find? (fun y => decide (y < p))

/-- The results list `handle_search` navigates over: the cached one, or a
fresh `search` when the state is dirty (`search_results == None`). -/
def currentResults (app : TemplateApp) : List Nat :=
  match app.search_results with
  | none => searchSelf app
  | some r => r

/-- `TemplateApp::handle_search` (lines 90–104). -/
def handle_search (app : TemplateApp) (is_forward_search : Bool) : TemplateApp :=
  let results := currentResults app
  match get_next_match results app.matched_pos is_forward_search with
  | some pos =>
    { app with
      search_results := some results
      matched_pos := some pos
      scroll_pos := some pos }
  | none =>
    { app with
      search_results := some []
      matched_pos := none }

/-- `TemplateApp::handle_file_selected` (lines 107–134).  `renderImpl` is the
external parse-and-dump collaborator (`open_file` + `DumpOptions::...`),
receiving the options value the source constructs. -/
def handle_file_selected (renderImpl : DumpOptions → FsPath → Option String)
    (app : TemplateApp) (node_id : FsPath) : TemplateApp :=
  { app with
    selected_file := some node_id
    search_results := none
    matched_pos := none
    scroll_pos := some 0
    dicom_dump := (cacheGetOrBuild (renderImpl dumpOptionsUsed) app.dicom_dump node_id).1 }

/-- `TemplateApp::handle_file_open` (lines 52–72).  `scanned` is the entry
list the external `DirTreeBuilder` yields once finished; `validDicom` models
`open_file(..).is_ok()`. -/
def handle_file_open (scanned : List PathSizeInfo) (validDicom : FsPath → Bool)
    (app : TemplateApp) (path : FsPath) : TemplateApp :=
  { app with
    base_dir := path
    dicom_files :=
      List.mergeSort (scanned.filter (fun x => !x.is_dir && validDicom x.path))
        (fun a b => charsLe (pathKey a.path).data (pathKey b.path).data)
    dicom_dump := [] }

/-- The query-edit UI reaction (lines 311–314): any change of the search
field resets the match state to dirty. -/
def handle_query_changed (app : TemplateApp) (q : String) : TemplateApp :=
  { app with search_input := q, matched_pos := none, search_results := none }

/-- The Clear-button UI reaction (lines 328–332). -/
def handle_clear_query (app : TemplateApp) : TemplateApp :=
  { app with search_input := "", matched_pos := none, search_results := none }

/-- The ascend loop of `build_ui_treeview` (lines 197–203): emit `CloseDir`
and drop the last component of the cursor until the cursor is a
component-wise starting segment of `parent` (a file's parent directory).
Returns the emitted events and the final cursor. -/
def goUp (parent : FsPath) (cur : FsPath) : List TreeEvent × FsPath :=
  if cur.isPrefixOf parent then ([], cur)
  else
    let pr := goUp parent cur.dropLast
    (TreeEvent.CloseDir :: pr.1, pr.2)
termination_by cur.length
decreasing_by
  have hne : cur ≠ [] := by
    intro h
    subst h
    simp [List.isPrefixOf] at *
  have := List.length_dropLast cur
  have : 0 < cur.length := List.length_pos.mpr hne
  omega

/-- The descend loop of `build_ui_treeview` (lines 206–211): push each
remaining component onto the cursor, emitting `OpenDir` for it. -/
def goDown (cur : FsPath) : List String → List TreeEvent × FsPath
  | [] => ([], cur)
  | c :: rest =>
    let pr := goDown (cur ++ [c]) rest
    (TreeEvent.OpenDir (cur ++ [c]) c :: pr.1, pr.2)

/-- One iteration of the entry loop of `build_ui_treeview` (lines 193–223):
ascend, descend (guarded by the source's `strip_prefix` test), then emit the
entry's `Leaf`. -/
def processEntry (cur : FsPath) (entry : FsPath) : List TreeEvent × FsPath :=
  let parent := entry.dropLast
  let up := goUp parent cur
  let down :=
    if up.2.isPrefixOf parent then goDown up.2 (parent.drop up.2.length)
    else ([], up.2)
  (up.1 ++ down.1 ++ [TreeEvent.Leaf entry ((entry.getLast?).getD "")], down.2)

/-- The whole entry loop, threading the cursor left to right. -/
def processEntries (cur : FsPath) : List FsPath → List TreeEvent × FsPath
  | [] => ([], cur)
  | e :: rest =>
    let pr := processEntry cur e
    let pr2 := processEntries pr.2 rest
    (pr.1 ++ pr2.1, pr2.2)

/-- `TemplateApp::build_ui_treeview` (lines 189–234) as the event sequence it
issues: the root `OpenDir`, the entry loop, the final ascent (guarded by the
source's `strip_prefix` test), and the root's `CloseDir`. -/
def build_ui_treeview (base_dir : FsPath) (files : List FsPath) : List TreeEvent :=
  let pr := processEntries base_dir files
  let closes :=
    if base_dir.isPrefixOf pr.2 then
      List.replicate (pr.2.length - base_dir.length) TreeEvent.CloseDir
    else []
  (TreeEvent.OpenDir base_dir (pathKey base_dir) :: pr.1) ++ closes ++ [TreeEvent.CloseDir]

/-- Whether an event is an `OpenDir`. -/
def isOpenDir : TreeEvent → Bool
  | TreeEvent.OpenDir _ _ => true
  | _ => false

/-- Whether an event is a `CloseDir`. -/
def isCloseDir : TreeEvent → Bool
  | TreeEvent.CloseDir => true
  | _ => false

/-- Stack-based replay of a tree-event sequence, tracking only the stack
depth: `OpenDir` pushes, `CloseDir` pops (`none` on underflow), `Leaf` is
neutral.  `replay es d = some e` means replaying `es` from depth `d` never
underflows and ends at depth `e`. -/
def replay : List TreeEvent → Nat → Option Nat
  | [], d => some d
  | TreeEvent.OpenDir _ _ :: es, d => replay es (d + 1)
  | TreeEvent.Leaf _ _ :: es, d => replay es d
  | TreeEvent.CloseDir :: es, d => if d = 0 then none else replay es (d - 1)

/-- The subsequence of `Leaf` paths of an event sequence, in emission order. -/
def leafPaths (evs : List TreeEvent) : List FsPath :=
  evs.filterMap (fun e =>
    match e with
    | TreeEvent.Leaf p _ => some p
    | _ => none)

/-- C10: `get_dicom_dump` is a total pure function of the state (the `&self`
borrow is modelled as a plain function, so it can modify nothing); it returns
`""` when no file is selected or the selected path has no cache entry, and
exactly the cached text otherwise. -/
theorem get_dicom_dump_spec (app : TemplateApp) :
    (app.selected_file = none → get_dicom_dump app = "") ∧
    (∀ f, app.selected_file = some f → cacheGet app.dicom_dump f = none →
      get_dicom_dump app = "") ∧
    (∀ f t, app.selected_file = some f → cacheGet app.dicom_dump f = some t →
      get_dicom_dump app = t) := by
  refine ⟨?_, ?_, ?_⟩
  · intro h
    simp [get_dicom_dump, h]
  · intro f h1 h2
    simp [get_dicom_dump, h1, h2]
  · intro f t h1 h2
    simp [get_dicom_dump, h1, h2]

/-- Witness for C10 at the initial state (nothing selected). -/
theorem get_dicom_dump_spec_witness : get_dicom_dump initApp = "" :=
  (get_dicom_dump_spec initApp).1 rfl

/-- Helper: `cacheGetOrBuild` never touches the entry of any other path. -/
theorem cacheGetOrBuild_other (render : FsPath → Option String)
    (cache : List (FsPath × String)) (p q : FsPath) (hq : q ≠ p) :
    cacheGet (cacheGetOrBuild render cache p).1 q = cacheGet cache q := by
  have hne : p ≠ q := fun h => hq h.symm
  unfold cacheGetOrBuild
  cases hc : cacheGet cache p with
  | some t => rfl
  | none =>
    cases hr : render p with
    | some t => simp [cacheGet, hne]
    | none => simp [cacheGet, hne]

/-- C6: the dump cache's get-or-build: a cached path is returned unchanged
without invoking the renderer; a missing path invokes it once, storing and
returning its text (`""` on failure); and entries of other paths are never
touched — in particular selecting a second file leaves the first file's
entry intact. -/
theorem cache_get_or_build_spec (render : FsPath → Option String)
    (cache : List (FsPath × String)) (p : FsPath) :
    (∀ t, cacheGet cache p = some t → cacheGetOrBuild render cache p = (cache, t, false)) ∧
    (cacheGet cache p = none →
      (cacheGetOrBuild render cache p).2.2 = true ∧
      (cacheGetOrBuild render cache p).2.1 = (render p).getD "" ∧
      cacheGet (cacheGetOrBuild render cache p).1 p = some ((render p).getD "")) ∧
    (∀ q, q ≠ p → cacheGet (cacheGetOrBuild render cache p).1 q = cacheGet cache q) ∧
    (∀ renderImpl app q, q ≠ p →
      cacheGet (handle_file_selected renderImpl app p).dicom_dump q =
        cacheGet app.dicom_dump q) := by
  refine ⟨?_, ?_, fun q hq => cacheGetOrBuild_other render cache p q hq, ?_⟩
  · intro t h
    unfold cacheGetOrBuild
    rw [h]
  · intro h
    unfold cacheGetOrBuild
    rw [h]
    cases hr : render p with
    | some t => simp [cacheGet]
    | none => simp [cacheGet]
  · intro renderImpl app q hq
    exact cacheGetOrBuild_other (renderImpl dumpOptionsUsed) app.dicom_dump p q hq

/-- Witness for C6 on a one-entry cache: re-requesting the cached path
returns the identical text with no renderer invocation. -/
theorem cache_get_or_build_spec_witness :
    cacheGet [(["a"], "x")] ["a"] = some "x" ∧
    cacheGetOrBuild (fun _ => none) [(["a"], "x")] ["a"] = ([(["a"], "x")], "x", false) :=
  ⟨rfl, (cache_get_or_build_spec (fun _ => none) [(["a"], "x")] ["a"]).1 "x" rfl⟩

/-- C5: when navigation fails — `get_next_match` returns `None`, which it
always does on an empty results list in either direction — `handle_search`
clears `matched_pos` and resets `search_results` to `Some(vec![])`, the
non-dirty "searched, found nothing" state. -/
theorem handle_search_failure (app : TemplateApp) (fwd : Bool) :
    (∀ mp b, get_next_match [] mp b = none) ∧
    (get_next_match (currentResults app) app.matched_pos fwd = none →
      (handle_search app fwd).matched_pos = none ∧
      (handle_search app fwd).search_results = some []) := by
  constructor
  · intro mp b
    cases mp <;> cases b <;> simp [get_next_match]
  · intro h
    simp [handle_search, h]

/-- Witness for C5 at the initial state: the empty dump yields an empty
results list, navigation fails, and the failure state is recorded. -/
theorem handle_search_failure_witness :
    get_next_match (currentResults initApp) initApp.matched_pos true = none ∧
    (handle_search initApp true).matched_pos = none ∧
    (handle_search initApp true).search_results = some [] :=
  ⟨rfl, (handle_search_failure initApp true).2 rfl⟩

/-- C7 (amended): `handle_file_open` rebuilds the file list, sets the new
root and clears the dump cache, but leaves the search state — query,
results, current match — and the selection unchanged. -/
theorem handle_file_open_effects (scanned : List PathSizeInfo)
    (validDicom : FsPath → Bool) (app : TemplateApp) (path : FsPath) :
    (handle_file_open scanned validDicom app path).dicom_dump = [] ∧
    (handle_file_open scanned validDicom app path).base_dir = path ∧
    (handle_file_open scanned validDicom app path).search_results = app.search_results ∧
    (handle_file_open scanned validDicom app path).matched_pos = app.matched_pos ∧
    (handle_file_open scanned validDicom app path).selected_file = app.selected_file ∧
    (handle_file_open scanned validDicom app path).search_input = app.search_input ∧
    (handle_file_open scanned validDicom app path).scroll_pos = app.scroll_pos :=
  ⟨rfl, rfl, rfl, rfl, rfl, rfl, rfl⟩

/-- C7 counterexample: opening a new root does NOT reset the search state —
a live current match and results list survive `handle_file_open` untouched,
refuting "the search results and current match are reset". -/
theorem handle_file_open_counterexample :
    (handle_file_open [] (fun _ => false)
      { initApp with matched_pos := some 5, search_results := some [5] } []).matched_pos
      = some 5 ∧
    (handle_file_open [] (fun _ => false)
      { initApp with matched_pos := some 5, search_results := some [5] } []).search_results
      = some [5] ∧
    ¬ (handle_file_open [] (fun _ => false)
      { initApp with matched_pos := some 5, search_results := some [5] } []).matched_pos
      = none := by
  refine ⟨rfl, rfl, ?_⟩
  intro h
  exact Option.noConfusion h

/-- C8 (amended): the dump renderer is invoked with width 256 but with the
default output limits left enabled (`no_limit(false)`, `no_text_limit(false)`),
and the produced text is what gets cached for a newly selected file. -/
theorem dump_render_invocation (renderImpl : DumpOptions → FsPath → Option String)
    (app : TemplateApp) (p : FsPath)
    (h : cacheGet app.dicom_dump p = none) :
    dumpOptionsUsed.width = 256 ∧
    dumpOptionsUsed.no_limit = false ∧
    dumpOptionsUsed.no_text_limit = false ∧
    cacheGet (handle_file_selected renderImpl app p).dicom_dump p =
      some ((renderImpl dumpOptionsUsed p).getD "") := by
  refine ⟨rfl, rfl, rfl, ?_⟩
  show cacheGet (cacheGetOrBuild (renderImpl dumpOptionsUsed) app.dicom_dump p).1 p = _
  unfold cacheGetOrBuild
  rw [h]
  cases hr : renderImpl dumpOptionsUsed p with
  | some t => simp [cacheGet]
  | none => simp [cacheGet]

/-- Witness for C8 (amended) at the initial state with a renderer stub. -/
theorem dump_render_invocation_witness :
    cacheGet initApp.dicom_dump ["a"] = none ∧
    cacheGet (handle_file_selected (fun _ _ => some "t") initApp ["a"]).dicom_dump ["a"] =
      some (((fun (_ : DumpOptions) (_ : FsPath) => some "t") dumpOptionsUsed ["a"]).getD "") :=
  ⟨rfl, (dump_render_invocation (fun _ _ => some "t") initApp ["a"] rfl).2.2.2⟩

/-- C8 counterexample: the options value the source passes to the renderer
does not disable the value/item limits — `no_limit` and `no_text_limit` are
both `false` — so the limits are not unrestricted. -/
theorem dump_options_counterexample :
    dumpOptionsUsed.width = 256 ∧
    ¬ (dumpOptionsUsed.no_limit = true ∧ dumpOptionsUsed.no_text_limit = true) := by
  decide

/-- The escaped empty pattern matches every line. -/
theorem containsSub_nil (hay : List Char) : containsSub [] hay = true := by
  induction hay with
  | nil => rfl
  | cons c rest ih => simp [containsSub, List.isPrefixOf]

/-- An empty query matches every line. -/
theorem lineMatches_empty_query (line : List Char) : lineMatches "" line = true := by
  have h : lowerChars "" = [] := rfl
  simp [lineMatches, h, containsSub_nil]

/-- C4: `search` returns `[]` on empty text; otherwise, in strictly
ascending order, exactly the indices of the lines (text split on the
line-feed character) matched case-insensitively by the literal query; the
empty query on non-empty text yields every line index, and
`search "ABC" "abc" = [0]`. -/
theorem search_spec :
    (∀ q, search q "" = []) ∧
    (∀ q t, List.Pairwise (· < ·) (search q t)) ∧
    (∀ q t, t ≠ "" → ∀ i, i ∈ search q t ↔
      ∃ h : i < (splitLines t).length, lineMatches q ((splitLines t).get ⟨i, h⟩) = true) ∧
    (∀ t, t ≠ "" → search "" t = List.range (splitLines t).length) ∧
    search "ABC" "abc" = [0] := by
  refine ⟨?_, ?_, ?_, ?_, ?_⟩
  · intro q
    simp [search]
  · intro q t
    by_cases h : t = ""
    · simp [search, h]
    · simp only [search, if_neg h]
      have hsub := List.Sublist.map Prod.fst
        (@List.filter_sublist _ (fun p => lineMatches q p.2) ((splitLines t).enum))
      rw [List.enum_map_fst] at hsub
      exact List.Pairwise.sublist hsub (List.pairwise_lt_range _)
  · intro q t ht i
    simp only [search, if_neg ht]
    constructor
    · intro hmem
      obtain ⟨⟨j, a⟩, hp, hfst⟩ := List.mem_map.mp hmem
      obtain ⟨henum, hmatch⟩ := List.mem_filter.mp hp
      have hsome := List.mem_enum_iff_getElem?.mp henum
      obtain ⟨hlt, hget⟩ := List.getElem?_eq_some_iff.mp hsome
      cases hfst
      exact ⟨hlt, by rw [List.get_eq_getElem, hget]; exact hmatch⟩
    · intro hx
      obtain ⟨hlt, hmatch⟩ := hx
      apply List.mem_map.mpr
      refine ⟨(i, (splitLines t).get ⟨i, hlt⟩), ?_, rfl⟩
      apply List.mem_filter.mpr
      refine ⟨List.mem_enum_iff_getElem?.mpr ?_, hmatch⟩
      simp [List.get_eq_getElem, List.getElem?_eq_getElem hlt]
  · intro t ht
    simp only [search, if_neg ht]
    rw [List.filter_eq_self.mpr, List.enum_map_fst]
    intro p _
    exact lineMatches_empty_query p.2
  · decide

/-- Witness for C4: the empty query on the non-empty text `"x"` returns
every line index. -/
theorem search_spec_witness :
    ("x" : String) ≠ "" ∧ search "" "x" = List.range (splitLines "x").length :=
  ⟨by decide, search_spec.2.2.2.1 "x" (by decide)⟩

/-- The first `find?` hit in a pairwise-ordered list is related to (or
equals) every other hit: pairwise order makes the first hit extremal. -/
theorem find?_min_of_pairwise {q : Nat → Bool} {R : Nat → Nat → Prop} :
    ∀ l : List Nat, List.Pairwise R l → ∀ r, l.find? q = some r →
      ∀ y ∈ l, q y = true → r = y ∨ R r y := by
  intro l
  induction l with
  | nil =>
    intro _ r h
    simp at h
  | cons a t ih =>
    intro hpw r h y hy hqy
    rw [List.pairwise_cons] at hpw
    by_cases hqa : q a = true
    · rw [List.find?_cons_of_pos t hqa] at h
      have har : a = r := by injection h
      rcases List.mem_cons.mp hy with hya | hyt
      · exact Or.inl (har ▸ hya.symm)
      · exact Or.inr (har ▸ hpw.1 y hyt)
    · rw [List.find?_cons_of_neg t hqa] at h
      rcases List.mem_cons.mp hy with hya | hyt
      · subst hya
        exact absurd hqy hqa
      · exact ih hpw.2 r h y hyt hqy

/-- `head?` of a nonempty list as an indexed element. -/
theorem head?_eq_get_zero (rs : List Nat) (h : 0 < rs.length) :
    rs.head? = some (rs.get ⟨0, h⟩) := by
  rw [List.head?_eq_getElem?, List.getElem?_eq_getElem h, List.get_eq_getElem]

/-- `getLast?` of a nonempty list as an indexed element. -/
theorem getLast?_eq_get_last (rs : List Nat) (h : 0 < rs.length) :
    rs.getLast? = some (rs.get ⟨rs.length - 1, by omega⟩) := by
  rw [List.getLast?_eq_getElem?, List.getElem?_eq_getElem (by omega), List.get_eq_getElem]

/-- A `some` value of `getLast?` is a member. -/
theorem mem_of_getLast?_eq (rs : List Nat) (x : Nat) (h : rs.getLast? = some x) :
    x ∈ rs := by
  have h0 : 0 < rs.length := by
    cases rs with
    | nil => simp at h
    | cons a t => simp
  rw [getLast?_eq_get_last rs h0] at h
  have hx : rs.get ⟨rs.length - 1, by omega⟩ = x := by injection h
  rw [← hx, List.get_eq_getElem]
  exact List.getElem_mem _

/-- A `some` value of `head?` is a member. -/
theorem mem_of_head?_eq (rs : List Nat) (x : Nat) (h : rs.head? = some x) :
    x ∈ rs := by
  have h0 : 0 < rs.length := by
    cases rs with
    | nil => simp at h
    | cons a t => simp
  rw [head?_eq_get_zero rs h0] at h
  have hx : rs.get ⟨0, h0⟩ = x := by injection h
  rw [← hx, List.get_eq_getElem]
  exact List.getElem_mem _

/-- In a strictly sorted list, element order reflects index order. -/
theorem get_lt_get_iff (rs : List Nat) (hs : List.Pairwise (· < ·) rs)
    (i j : Fin rs.length) : rs.get i < rs.get j ↔ i < j := by
  constructor
  · intro hlt
    rcases lt_trichotomy i j with h | h | h
    · exact h
    · rw [h] at hlt
      exact absurd hlt (lt_irrefl _)
    · have := List.pairwise_iff_get.mp hs j i h
      omega
  · intro hij
    exact List.pairwise_iff_get.mp hs i j hij

/-- C3: the navigation rule of `get_next_match` over a computed (sorted)
results list: forward wraps to the first result when there is no current
match or the current match is ≥ the last result, and otherwise returns the
smallest result strictly greater than the current match; backward is the
mirror image; consequently, from the `i`-th result a forward step lands on
result `(i+1) mod n` and a backward step on result `(i+n-1) mod n`, so
repeated calls cycle through all results in order. -/
theorem get_next_match_spec (rs : List Nat) (hs : List.Pairwise (· < ·) rs) :
    (get_next_match rs none true = rs.head?) ∧
    (get_next_match rs none false = rs.getLast?) ∧
    (∀ p x, rs.getLast? = some x → x ≤ p → get_next_match rs (some p) true = rs.head?) ∧
    (∀ p x, rs.getLast? = some x → p < x →
      ∃ r, get_next_match rs (some p) true = some r ∧ r ∈ rs ∧ p < r ∧
        ∀ y ∈ rs, p < y → r ≤ y) ∧
    (∀ p x, rs.head? = some x → p ≤ x → get_next_match rs (some p) false = rs.getLast?) ∧
    (∀ p x, rs.head? = some x → x < p →
      ∃ r, get_next_match rs (some p) false = some r ∧ r ∈ rs ∧ r < p ∧
        ∀ y ∈ rs, y < p → y ≤ r) ∧
    (∀ i : Fin rs.length, get_next_match rs (some (rs.get i)) true =
      some (rs.get ⟨(i.1 + 1) % rs.length, Nat.mod_lt _ i.pos⟩)) ∧
    (∀ i : Fin rs.length, get_next_match rs (some (rs.get i)) false =
      some (rs.get ⟨(i.1 + rs.length - 1) % rs.length, Nat.mod_lt _ i.pos⟩)) := by
  have hfwd_wrap : ∀ p x, rs.getLast? = some x → x ≤ p →
      get_next_match rs (some p) true = rs.head? := by
    intro p x hlast hle
    simp [get_next_match, hlast, hle]
  have hfwd_step : ∀ p x, rs.getLast? = some x → p < x →
      ∃ r, get_next_match rs (some p) true = some r ∧ r ∈ rs ∧ p < r ∧
        ∀ y ∈ rs, p < y → r ≤ y := by
    intro p x hlast hlt
    have hxmem : x ∈ rs := mem_of_getLast?_eq rs x hlast
    obtain ⟨r, hr⟩ : ∃ r, rs.find? (fun y => decide (p < y)) = some r :=
      Option.isSome_iff_exists.mp
        (List.find?_isSome.mpr ⟨x, hxmem, decide_eq_true_iff.mpr hlt⟩)
    have hnotle : ¬ x ≤ p := by omega
    have hpr : p < r := by
      have h1 := List.find?_some hr
      simpa using h1
    refine ⟨r, ?_, List.mem_of_find?_eq_some hr, hpr, ?_⟩
    · simp [get_next_match, hlast, hnotle, hr]
    · intro y hy hpy
      rcases find?_min_of_pairwise rs hs r hr y hy (decide_eq_true_iff.mpr hpy) with
        h | h
      · omega
      · omega
  have hbwd_wrap : ∀ p x, rs.head? = some x → p ≤ x →
      get_next_match rs (some p) false = rs.getLast? := by
    intro p x hhead hle
    simp [get_next_match, hhead, hle]
  have hbwd_step : ∀ p x, rs.head? = some x → x < p →
      ∃ r, get_next_match rs (some p) false = some r ∧ r ∈ rs ∧ r < p ∧
        ∀ y ∈ rs, y < p → y ≤ r := by
    intro p x hhead hlt
    have hxmem : x ∈ rs.reverse := List.mem_reverse.mpr (mem_of_head?_eq rs x hhead)
    have hrevpw : List.Pairwise (fun a b => b < a) rs.reverse :=
      List.pairwise_reverse.mpr hs
    obtain ⟨r, hr⟩ : ∃ r, rs.reverse.find? (fun y => decide (y < p)) = some r :=
      Option.isSome_iff_exists.mp
        (List.find?_isSome.mpr ⟨x, hxmem, decide_eq_true_iff.mpr hlt⟩)
    have hnotle : ¬ p ≤ x := by omega
    have hpr : r < p := by
      have h1 := List.find?_some hr
      simpa using h1
    refine ⟨r, ?_, List.mem_reverse.mp (List.mem_of_find?_eq_some hr), hpr, ?_⟩
    · simp [get_next_match, hhead, hnotle, hr]
    · intro y hy hyp
      rcases find?_min_of_pairwise rs.reverse hrevpw r hr y
          (List.mem_reverse.mpr hy) (decide_eq_true_iff.mpr hyp) with h | h
      · omega
      · omega
  have hcyc_fwd : ∀ i : Fin rs.length, get_next_match rs (some (rs.get i)) true =
      some (rs.get ⟨(i.1 + 1) % rs.length, Nat.mod_lt _ i.pos⟩) := by
    intro i
    have h0 : 0 < rs.length := i.pos
    by_cases hend : i.1 + 1 = rs.length
    · have hlast := getLast?_eq_get_last rs h0
      have hgi : (⟨rs.length - 1, by omega⟩ : Fin rs.length) = i := by
        apply Fin.ext
        show rs.length - 1 = i.1
        omega
      rw [hgi] at hlast
      have hw := hfwd_wrap (rs.get i) (rs.get i) hlast (le_refl _)
      have hfe : (⟨(i.1 + 1) % rs.length, Nat.mod_lt _ i.pos⟩ : Fin rs.length) =
          ⟨0, h0⟩ := by
        apply Fin.ext
        show (i.1 + 1) % rs.length = 0
        rw [hend]
        exact Nat.mod_self _
      rw [hw, head?_eq_get_zero rs h0, hfe]
    · have hsucc : i.1 + 1 < rs.length := by omega
      have hlast := getLast?_eq_get_last rs h0
      have hplt : rs.get i < rs.get ⟨rs.length - 1, by omega⟩ := by
        rw [get_lt_get_iff rs hs]
        show i.1 < rs.length - 1
        omega
      obtain ⟨r, heq, hrmem, hrlt, hmin⟩ :=
        hfwd_step (rs.get i) (rs.get ⟨rs.length - 1, by omega⟩) hlast hplt
      have hle1 : r ≤ rs.get ⟨i.1 + 1, hsucc⟩ := by
        apply hmin
        · rw [List.get_eq_getElem]
          exact List.getElem_mem _
        · rw [get_lt_get_iff rs hs]
          show i.1 < i.1 + 1
          omega
      have hle2 : rs.get ⟨i.1 + 1, hsucc⟩ ≤ r := by
        obtain ⟨j, hj⟩ := List.mem_iff_get.mp hrmem
        subst hj
        have hij : i.1 < j.1 := (get_lt_get_iff rs hs i j).mp hrlt
        rcases Nat.eq_or_lt_of_le hij with h | h
        · have hje : (⟨i.1 + 1, hsucc⟩ : Fin rs.length) = j := by
            apply Fin.ext
            show i.1 + 1 = j.1
            omega
          rw [hje]
        · apply le_of_lt
          rw [get_lt_get_iff rs hs]
          show i.1 + 1 < j.1
          omega
      have hfe : (⟨(i.1 + 1) % rs.length, Nat.mod_lt _ i.pos⟩ : Fin rs.length) =
          ⟨i.1 + 1, hsucc⟩ := by
        apply Fin.ext
        show (i.1 + 1) % rs.length = i.1 + 1
        exact Nat.mod_eq_of_lt hsucc
      rw [heq, le_antisymm hle1 hle2, hfe]
  have hcyc_bwd : ∀ i : Fin rs.length, get_next_match rs (some (rs.get i)) false =
      some (rs.get ⟨(i.1 + rs.length - 1) % rs.length, Nat.mod_lt _ i.pos⟩) := by
    intro i
    have h0 : 0 < rs.length := i.pos
    by_cases hzero : i.1 = 0
    · have hhead := head?_eq_get_zero rs h0
      have hgi : (⟨0, h0⟩ : Fin rs.length) = i := by
        apply Fin.ext
        show 0 = i.1
        omega
      rw [hgi] at hhead
      have hw := hbwd_wrap (rs.get i) (rs.get i) hhead (le_refl _)
      have hfe : (⟨(i.1 + rs.length - 1) % rs.length, Nat.mod_lt _ i.pos⟩ :
          Fin rs.length) = ⟨rs.length - 1, by omega⟩ := by
        apply Fin.ext
        show (i.1 + rs.length - 1) % rs.length = rs.length - 1
        have he : i.1 + rs.length - 1 = rs.length - 1 := by omega
        rw [he, Nat.mod_eq_of_lt (by omega)]
      rw [hw, getLast?_eq_get_last rs h0, hfe]
    · have hpred : i.1 - 1 < rs.length := by omega
      have hhead := head?_eq_get_zero rs h0
      have hplt : rs.get ⟨0, h0⟩ < rs.get i := by
        rw [get_lt_get_iff rs hs]
        show 0 < i.1
        omega
      obtain ⟨r, heq, hrmem, hrlt, hmax⟩ :=
        hbwd_step (rs.get i) (rs.get ⟨0, h0⟩) hhead hplt
      have hle1 : rs.get ⟨i.1 - 1, hpred⟩ ≤ r := by
        apply hmax
        · rw [List.get_eq_getElem]
          exact List.getElem_mem _
        · rw [get_lt_get_iff rs hs]
          show i.1 - 1 < i.1
          omega
      have hle2 : r ≤ rs.get ⟨i.1 - 1, hpred⟩ := by
        obtain ⟨j, hj⟩ := List.mem_iff_get.mp hrmem
        subst hj
        have hij : j.1 < i.1 := (get_lt_get_iff rs hs j i).mp hrlt
        rcases Nat.lt_or_ge j.1 (i.1 - 1) with h | h
        · apply le_of_lt
          rw [get_lt_get_iff rs hs]
          show j.1 < i.1 - 1
          omega
        · have hje : j = (⟨i.1 - 1, hpred⟩ : Fin rs.length) := by
            apply Fin.ext
            show j.1 = i.1 - 1
            omega
          rw [hje]
      have hfe : (⟨(i.1 + rs.length - 1) % rs.length, Nat.mod_lt _ i.pos⟩ :
          Fin rs.length) = ⟨i.1 - 1, hpred⟩ := by
        apply Fin.ext
        show (i.1 + rs.length - 1) % rs.length = i.1 - 1
        have harith : i.1 + rs.length - 1 = (i.1 - 1) + rs.length := by omega
        rw [harith, Nat.add_mod_right, Nat.mod_eq_of_lt (by omega)]
      rw [heq, le_antisymm hle2 hle1, hfe]
  exact ⟨by simp [get_next_match], by simp [get_next_match], hfwd_wrap, hfwd_step,
    hbwd_wrap, hbwd_step, hcyc_fwd, hcyc_bwd⟩

/-- Witness for C3 on the sorted results list `[1, 3]`: with no current
match, forward navigation wraps to the first result. -/
theorem get_next_match_spec_witness :
    List.Pairwise (· < ·) ([1, 3] : List Nat) ∧
    get_next_match [1, 3] none true = ([1, 3] : List Nat).head? :=
  ⟨by decide, (get_next_match_spec [1, 3] (by decide)).1⟩

/-- Any successful navigation lands on an element of the results list. -/
theorem get_next_match_mem (rs : List Nat) (mp : Option Nat) (b : Bool) (x : Nat)
    (h : get_next_match rs mp b = some x) : x ∈ rs := by
  cases b with
  | true =>
    cases mp with
    | none => exact mem_of_head?_eq rs x h
    | some p =>
      have h' : (match rs.getLast? with
          | some z => if z ≤ p then rs.head? else rs.find? (fun y => decide (p < y))
          | none => rs.find? (fun y => decide (p < y))) = some x := h
      cases hl : rs.getLast? with
      | none =>
        rw [hl] at h'
        exact List.mem_of_find?_eq_some h'
      | some y =>
        rw [hl] at h'
        have h'' : (if y ≤ p then rs.head?
            else rs.find? (fun z => decide (p < z))) = some x := h'
        by_cases hle : y ≤ p
        · rw [if_pos hle] at h''
          exact mem_of_head?_eq rs x h''
        · rw [if_neg hle] at h''
          exact List.mem_of_find?_eq_some h''
  | false =>
    cases mp with
    | none => exact mem_of_getLast?_eq rs x h
    | some p =>
      have h' : (match rs.head? with
          | some z => if p ≤ z then rs.getLast?
            else rs.reverse.find? (fun y => decide (y < p))
          | none => rs.reverse.find? (fun y => decide (y < p))) = some x := h
      cases hl : rs.head? with
      | none =>
        rw [hl] at h'
        exact List.mem_reverse.mp (List.mem_of_find?_eq_some h')
      | some y =>
        rw [hl] at h'
        have h'' : (if p ≤ y then rs.getLast?
            else rs.reverse.find? (fun z => decide (z < p))) = some x := h'
        by_cases hle : p ≤ y
        · rw [if_pos hle] at h''
          exact mem_of_getLast?_eq rs x h''
        · rw [if_neg hle] at h''
          exact List.mem_reverse.mp (List.mem_of_find?_eq_some h'')

/-- The search-state invariant: a current match, when present together with
computed results, is one of the results. -/
def SearchInv (app : TemplateApp) : Prop :=
  ∀ p rs, app.matched_pos = some p → app.search_results = some rs → p ∈ rs

/-- One user intent handled by the core: navigation, query edit, query
clear, leaf selection, or opening a new root. -/
inductive AppStep : TemplateApp → TemplateApp → Prop where
  | searchStep (app : TemplateApp) (fwd : Bool) : AppStep app (handle_search app fwd)
  | queryEdit (app : TemplateApp) (q : String) : AppStep app (handle_query_changed app q)
  | clearQuery (app : TemplateApp) : AppStep app (handle_clear_query app)
  | selectFile (app : TemplateApp) (renderImpl : DumpOptions → FsPath → Option String)
      (p : FsPath) : AppStep app (handle_file_selected renderImpl app p)
  | openRoot (app : TemplateApp) (scanned : List PathSizeInfo)
      (validDicom : FsPath → Bool) (root : FsPath) :
      AppStep app (handle_file_open scanned validDicom app root)

/-- States reachable from the initial state by the handled user intents. -/
def ReachableApp (app : TemplateApp) : Prop :=
  Relation.ReflTransGen AppStep initApp app

/-- Every handled intent re-establishes or preserves the invariant. -/
theorem appStep_searchInv (a b : TemplateApp) (hinv : SearchInv a)
    (h : AppStep a b) : SearchInv b := by
  cases h with
  | searchStep fwd =>
    intro p rs hp hr
    simp only [handle_search] at hp hr
    cases hg : get_next_match (currentResults a) a.matched_pos fwd with
    | none =>
      rw [hg] at hp
      simp at hp
    | some pos =>
      rw [hg] at hp hr
      simp at hp hr
      subst hp
      subst hr
      exact get_next_match_mem _ _ _ _ hg
  | queryEdit q =>
    intro p rs hp hr
    simp [handle_query_changed] at hp
  | clearQuery =>
    intro p rs hp hr
    simp [handle_clear_query] at hp
  | selectFile renderImpl q =>
    intro p rs hp hr
    simp [handle_file_selected] at hp
  | openRoot scanned validDicom root =>
    intro p rs hp hr
    exact hinv p rs hp hr

/-- C9: in every state reachable from the initial one by the search and
navigation operations (searching, navigating forward/backward, editing or
clearing the query, selecting a file, opening a root), a present current
match always belongs to the computed results. -/
theorem search_invariant (app : TemplateApp) (h : ReachableApp app) :
    SearchInv app := by
  induction h with
  | refl =>
    intro p rs hp hr
    simp [initApp] at hp
  | tail h1 h2 ih =>
    exact appStep_searchInv _ _ ih h2

/-- Witness for C9 at the initial state (reachable by the empty intent
sequence). -/
theorem search_invariant_witness : SearchInv initApp :=
  search_invariant initApp Relation.ReflTransGen.refl

/-- The empty cursor starts every path. -/
theorem nil_isPrefixOf (l : FsPath) : List.isPrefixOf ([] : FsPath) l = true := by
  cases l <;> rfl

/-- Conversion between the executable and the propositional
starting-segment tests on component lists. -/
theorem isPrefixOf_eq_true {l1 l2 : FsPath} : l1.isPrefixOf l2 = true ↔ l1 <+: l2 :=
  List.isPrefixOf_iff_prefix

/-- Unfolding of `goUp` when the cursor already starts `parent`. -/
theorem goUp_pos (parent cur : FsPath) (h : cur.isPrefixOf parent = true) :
    goUp parent cur = ([], cur) := by
  rw [goUp.eq_def]
  rw [if_pos h]

/-- Unfolding of `goUp` when it must ascend one component. -/
theorem goUp_neg (parent cur : FsPath) (h : ¬ cur.isPrefixOf parent = true) :
    goUp parent cur =
      (TreeEvent.CloseDir :: (goUp parent cur.dropLast).1, (goUp parent cur.dropLast).2) := by
  rw [goUp.eq_def]
  rw [if_neg h]

/-- `replay` distributes over concatenation. -/
theorem replay_append (xs ys : List TreeEvent) (d : Nat) :
    replay (xs ++ ys) d = (replay xs d).bind (fun e => replay ys e) := by
  induction xs generalizing d with
  | nil => simp [replay]
  | cons ev t ih =>
    cases ev with
    | OpenDir p l => simp [replay, ih]
    | Leaf p l => simp [replay, ih]
    | CloseDir =>
      by_cases hd : d = 0
      · simp [replay, hd]
      · simp [replay, hd, ih]

/-- Replaying `k` `CloseDir` events pops exactly `k` frames. -/
theorem replay_replicate_close (k : Nat) : ∀ d, k ≤ d →
    replay (List.replicate k TreeEvent.CloseDir) d = some (d - k) := by
  induction k with
  | zero =>
    intro d h
    simp [replay]
  | succ n ih =>
    intro d h
    rw [List.replicate_succ]
    have hd : ¬ d = 0 := by omega
    simp only [replay, if_neg hd]
    rw [ih (d - 1) (by omega)]
    congr 1
    omega

/-- A successful replay relates the depths to the `OpenDir`/`CloseDir`
counts: end depth + closes = start depth + opens. -/
theorem replay_count (es : List TreeEvent) : ∀ d e, replay es d = some e →
    d + List.countP isOpenDir es = e + List.countP isCloseDir es := by
  induction es with
  | nil =>
    intro d e h
    simp [replay] at h
    simp [h]
  | cons ev t ih =>
    intro d e h
    cases ev with
    | OpenDir p l =>
      simp only [replay] at h
      have := ih (d + 1) e h
      simp only [List.countP_cons, isOpenDir, isCloseDir]
      simp
      omega
    | Leaf p l =>
      simp only [replay] at h
      have := ih d e h
      simp only [List.countP_cons, isOpenDir, isCloseDir]
      simp
      omega
    | CloseDir =>
      by_cases hd : d = 0
      · simp [replay, hd] at h
      · simp only [replay, if_neg hd] at h
        have := ih (d - 1) e h
        simp only [List.countP_cons, isOpenDir, isCloseDir]
        simp
        omega

/-- Full description of the ascend loop when the cursor and the target
both lie under `base`: it emits one `CloseDir` per dropped component and
stops at a cursor that starts `parent`, never above `base`. -/
theorem goUp_spec (parent base : FsPath) (hbp : base <+: parent) :
    ∀ n cur, cur.length ≤ n → base <+: cur →
      ∃ cur', goUp parent cur =
          (List.replicate (cur.length - cur'.length) TreeEvent.CloseDir, cur') ∧
        cur' <+: parent ∧ base <+: cur' ∧ cur'.length ≤ cur.length := by
  intro n
  induction n with
  | zero =>
    intro cur hlen hbc
    have hnil : cur = [] := List.length_eq_zero.mp (by omega)
    subst hnil
    have hpf : List.isPrefixOf ([] : FsPath) parent = true := nil_isPrefixOf parent
    refine ⟨[], ?_, isPrefixOf_eq_true.mp hpf, hbc, le_refl _⟩
    rw [goUp_pos parent [] hpf]
    simp
  | succ n ih =>
    intro cur hlen hbc
    by_cases hpf : cur.isPrefixOf parent = true
    · refine ⟨cur, ?_, isPrefixOf_eq_true.mp hpf, hbc, le_refl _⟩
      rw [goUp_pos parent cur hpf]
      simp
    · have hcne : cur ≠ [] := by
        intro hc
        subst hc
        exact hpf (nil_isPrefixOf parent)
      have hlc : 0 < cur.length := List.length_pos.mpr hcne
      obtain ⟨t, ht⟩ := hbc
      have htne : t ≠ [] := by
        intro h0
        subst h0
        rw [List.append_nil] at ht
        subst ht
        exact hpf (isPrefixOf_eq_true.mpr hbp)
      have hbdl : base <+: cur.dropLast := by
        refine ⟨t.dropLast, ?_⟩
        rw [← ht, List.dropLast_append_of_ne_nil base htne]
      have hlen' : cur.dropLast.length ≤ n := by
        rw [List.length_dropLast]
        omega
      obtain ⟨cur', heq, h1, h2, h3⟩ := ih cur.dropLast hlen' hbdl
      rw [List.length_dropLast] at h3
      refine ⟨cur', ?_, h1, h2, by omega⟩
      rw [goUp_neg parent cur hpf, heq]
      have hrep : cur.length - cur'.length = (cur.dropLast.length - cur'.length) + 1 := by
        rw [List.length_dropLast]
        omega
      rw [hrep, List.replicate_succ]

/-- The descend loop pushes every component, opening one directory each. -/
theorem goDown_spec (comps : List String) : ∀ cur,
    (goDown cur comps).2 = cur ++ comps ∧
    ∀ d, replay (goDown cur comps).1 d = some (d + comps.length) := by
  induction comps with
  | nil =>
    intro cur
    constructor
    · simp [goDown]
    · intro d
      simp [goDown, replay]
  | cons c rest ih =>
    intro cur
    constructor
    · show (TreeEvent.OpenDir (cur ++ [c]) c :: (goDown (cur ++ [c]) rest).1,
          (goDown (cur ++ [c]) rest).2).2 = cur ++ c :: rest
      rw [(ih (cur ++ [c])).1]
      simp
    · intro d
      show replay (TreeEvent.OpenDir (cur ++ [c]) c :: (goDown (cur ++ [c]) rest).1) d =
        some (d + (c :: rest).length)
      simp only [replay]
      rw [(ih (cur ++ [c])).2 (d + 1)]
      simp only [List.length_cons]
      congr 1
      omega

/-- One loop iteration moves the cursor to the entry's parent directory and
its events change the replay depth accordingly, never underflowing. -/
theorem processEntry_spec (base cur entry : FsPath)
    (hbc : base <+: cur) (hbp : base <+: entry.dropLast) :
    (processEntry cur entry).2 = entry.dropLast ∧
    replay (processEntry cur entry).1 (cur.length - base.length + 1) =
      some (entry.dropLast.length - base.length + 1) := by
  obtain ⟨cur', heq, h1, h2, h3⟩ :=
    goUp_spec entry.dropLast base hbp cur.length cur (le_refl _) hbc
  have h1b : cur'.isPrefixOf entry.dropLast = true := isPrefixOf_eq_true.mpr h1
  have hlc'p : cur'.length ≤ entry.dropLast.length := h1.length_le
  have hlbc' : base.length ≤ cur'.length := h2.length_le
  have hlbc : base.length ≤ cur.length := hbc.length_le
  obtain ⟨t, ht⟩ := h1
  have hdrop : (entry.dropLast).drop cur'.length = t := by
    rw [← ht]
    exact List.drop_left cur' t
  have hup2 : (goUp entry.dropLast cur).2 = cur' := by
    rw [heq]
  have hup1 : (goUp entry.dropLast cur).1 =
      List.replicate (cur.length - cur'.length) TreeEvent.CloseDir := by
    rw [heq]
  have htlen : cur'.length + t.length = entry.dropLast.length := by
    rw [← ht, List.length_append]
  have hpe : processEntry cur entry =
      ((goUp entry.dropLast cur).1 ++
        (goDown cur' ((entry.dropLast).drop cur'.length)).1 ++
        [TreeEvent.Leaf entry ((entry.getLast?).getD "")],
       (goDown cur' ((entry.dropLast).drop cur'.length)).2) := by
    simp only [processEntry]
    rw [hup2, if_pos h1b]
  constructor
  · rw [hpe]
    show (goDown cur' ((entry.dropLast).drop cur'.length)).2 = entry.dropLast
    rw [(goDown_spec ((entry.dropLast).drop cur'.length) cur').1, hdrop, ht]
  · rw [hpe]
    show replay ((goUp entry.dropLast cur).1 ++
        (goDown cur' ((entry.dropLast).drop cur'.length)).1 ++
        [TreeEvent.Leaf entry ((entry.getLast?).getD "")])
      (cur.length - base.length + 1) = _
    simp only [List.append_assoc]
    rw [replay_append, hup1,
      replay_replicate_close (cur.length - cur'.length)
        (cur.length - base.length + 1) (by omega)]
    simp only [Option.some_bind]
    rw [replay_append, hdrop, (goDown_spec t cur').2]
    simp only [Option.some_bind]
    simp only [replay]
    congr 1
    omega

/-- The whole entry loop keeps the cursor under `base` and its events
replay cleanly from the depth of the starting cursor to the depth of the
final one. -/
theorem processEntries_spec (base : FsPath) (entries : List FsPath) :
    ∀ cur, base <+: cur → (∀ e ∈ entries, base <+: e.dropLast) →
      base <+: (processEntries cur entries).2 ∧
      replay (processEntries cur entries).1 (cur.length - base.length + 1) =
        some ((processEntries cur entries).2.length - base.length + 1) := by
  induction entries with
  | nil =>
    intro cur hbc hall
    constructor
    · exact hbc
    · simp [processEntries, replay]
  | cons e rest ih =>
    intro cur hbc hall
    have hbe : base <+: e.dropLast := hall e (List.mem_cons_self e rest)
    have hrest : ∀ x ∈ rest, base <+: x.dropLast :=
      fun x hx => hall x (List.mem_cons_of_mem e hx)
    obtain ⟨hc1, hr1⟩ := processEntry_spec base cur e hbc hbe
    have hbp2 : base <+: (processEntry cur e).2 := hc1 ▸ hbe
    obtain ⟨hc2, hr2⟩ := ih (processEntry cur e).2 hbp2 hrest
    constructor
    · exact hc2
    · show replay ((processEntry cur e).1 ++
          (processEntries (processEntry cur e).2 rest).1)
        (cur.length - base.length + 1) = _
      rw [replay_append, hr1]
      simp only [Option.some_bind]
      rw [← hc1]
      exact hr2

/-- `build_ui_treeview`, unfolded. -/
theorem build_ui_treeview_eq (base : FsPath) (files : List FsPath) :
    build_ui_treeview base files =
      (TreeEvent.OpenDir base (pathKey base) :: (processEntries base files).1) ++
        (if base.isPrefixOf (processEntries base files).2 = true then
          List.replicate ((processEntries base files).2.length - base.length)
            TreeEvent.CloseDir
        else []) ++ [TreeEvent.CloseDir] := rfl

/-- C1: for a FileList whose entries lie under the base root (as the
classifier guarantees) and which is sorted, the emitted event sequence is
properly nested — a stack replay from depth 0 never underflows and ends at
depth 0 — and has equally many `OpenDir` and `CloseDir` events. -/
theorem build_ui_treeview_balanced (base : FsPath) (files : List FsPath)
    (hsorted : List.Pairwise
      (fun a b => charsLe (pathKey a).data (pathKey b).data = true) files)
    (hroot : ∀ f ∈ files, base.isPrefixOf f.dropLast = true) :
    replay (build_ui_treeview base files) 0 = some 0 ∧
    List.countP isOpenDir (build_ui_treeview base files) =
      List.countP isCloseDir (build_ui_treeview base files) := by
  have hroot' : ∀ f ∈ files, base <+: f.dropLast :=
    fun f hf => isPrefixOf_eq_true.mp (hroot f hf)
  obtain ⟨hpf, hrep⟩ :=
    processEntries_spec base files base (List.prefix_refl base) hroot'
  have hclose : base.isPrefixOf (processEntries base files).2 = true :=
    isPrefixOf_eq_true.mpr hpf
  have hflen : base.length ≤ (processEntries base files).2.length := hpf.length_le
  have hrun : replay (build_ui_treeview base files) 0 = some 0 := by
    rw [build_ui_treeview_eq, if_pos hclose]
    simp only [List.cons_append, List.append_assoc]
    simp only [replay]
    rw [replay_append]
    have h1 : base.length - base.length + 1 = 1 := by omega
    rw [h1] at hrep
    rw [hrep]
    simp only [Option.some_bind]
    rw [replay_append,
      replay_replicate_close ((processEntries base files).2.length - base.length)
        ((processEntries base files).2.length - base.length + 1) (by omega)]
    simp only [Option.some_bind]
    have h2 : (processEntries base files).2.length - base.length + 1 -
        ((processEntries base files).2.length - base.length) = 1 := by omega
    rw [h2]
    simp [replay]
  refine ⟨hrun, ?_⟩
  have := replay_count (build_ui_treeview base files) 0 0 hrun
  omega

/-- Witness for C1 on the spec's own scenario: root `r`, files
`r/a/1.dcm` and `r/b/c/3.dcm`. -/
theorem build_ui_treeview_balanced_witness :
    (List.Pairwise
      (fun a b : FsPath => charsLe (pathKey a).data (pathKey b).data = true)
      [["r", "a", "1.dcm"], ["r", "b", "c", "3.dcm"]] ∧
     ∀ f ∈ [["r", "a", "1.dcm"], ["r", "b", "c", "3.dcm"]],
       (["r"] : FsPath).isPrefixOf f.dropLast = true) ∧
    replay (build_ui_treeview ["r"]
      [["r", "a", "1.dcm"], ["r", "b", "c", "3.dcm"]]) 0 = some 0 :=
  ⟨⟨by decide, by decide⟩,
    (build_ui_treeview_balanced ["r"] [["r", "a", "1.dcm"], ["r", "b", "c", "3.dcm"]]
      (by decide) (by decide)).1⟩

/-- `leafPaths` distributes over concatenation. -/
theorem leafPaths_append (xs ys : List TreeEvent) :
    leafPaths (xs ++ ys) = leafPaths xs ++ leafPaths ys :=
  List.filterMap_append xs ys _

/-- An `OpenDir` contributes no leaf. -/
theorem leafPaths_cons_open (p : FsPath) (l : String) (rest : List TreeEvent) :
    leafPaths (TreeEvent.OpenDir p l :: rest) = leafPaths rest := by
  simp [leafPaths, List.filterMap_cons]

/-- A `CloseDir` contributes no leaf. -/
theorem leafPaths_cons_close (rest : List TreeEvent) :
    leafPaths (TreeEvent.CloseDir :: rest) = leafPaths rest := by
  simp [leafPaths, List.filterMap_cons]

/-- A `Leaf` contributes exactly its path. -/
theorem leafPaths_cons_leaf (p : FsPath) (l : String) (rest : List TreeEvent) :
    leafPaths (TreeEvent.Leaf p l :: rest) = p :: leafPaths rest := by
  simp [leafPaths, List.filterMap_cons]

/-- The ascend loop emits no leaves. -/
theorem leafPaths_goUp (parent : FsPath) : ∀ n cur, cur.length ≤ n →
    leafPaths (goUp parent cur).1 = [] := by
  intro n
  induction n with
  | zero =>
    intro cur hlen
    have hnil : cur = [] := List.length_eq_zero.mp (by omega)
    subst hnil
    rw [goUp_pos parent [] (nil_isPrefixOf parent)]
    rfl
  | succ n ih =>
    intro cur hlen
    by_cases hpf : cur.isPrefixOf parent = true
    · rw [goUp_pos parent cur hpf]
      rfl
    · have hcne : cur ≠ [] := by
        intro hc
        subst hc
        exact hpf (nil_isPrefixOf parent)
      have hlc : 0 < cur.length := List.length_pos.mpr hcne
      rw [goUp_neg parent cur hpf]
      show leafPaths (TreeEvent.CloseDir :: (goUp parent cur.dropLast).1) = []
      rw [leafPaths_cons_close]
      apply ih
      rw [List.length_dropLast]
      omega

/-- The descend loop emits no leaves. -/
theorem leafPaths_goDown (comps : List String) : ∀ cur,
    leafPaths (goDown cur comps).1 = [] := by
  induction comps with
  | nil =>
    intro cur
    rfl
  | cons c rest ih =>
    intro cur
    show leafPaths (TreeEvent.OpenDir (cur ++ [c]) c :: (goDown (cur ++ [c]) rest).1) = []
    rw [leafPaths_cons_open]
    exact ih (cur ++ [c])

/-- A block of `CloseDir` events has no leaves. -/
theorem leafPaths_replicate_close (k : Nat) :
    leafPaths (List.replicate k TreeEvent.CloseDir) = [] := by
  induction k with
  | zero => rfl
  | succ n ih =>
    rw [List.replicate_succ, leafPaths_cons_close]
    exact ih

/-- One loop iteration emits exactly the entry's own leaf. -/
theorem leafPaths_processEntry (cur entry : FsPath) :
    leafPaths (processEntry cur entry).1 = [entry] := by
  have hup := leafPaths_goUp entry.dropLast cur.length cur (le_refl _)
  simp only [processEntry]
  by_cases h : (goUp entry.dropLast cur).2.isPrefixOf entry.dropLast = true
  · rw [if_pos h]
    rw [leafPaths_append, leafPaths_append, hup, leafPaths_goDown]
    rw [leafPaths_cons_leaf]
    rfl
  · rw [if_neg h]
    rw [leafPaths_append, leafPaths_append, hup]
    rw [leafPaths_cons_leaf]
    rfl

/-- The whole loop emits the entries' leaves, in order. -/
theorem leafPaths_processEntries (entries : List FsPath) : ∀ cur,
    leafPaths (processEntries cur entries).1 = entries := by
  induction entries with
  | nil =>
    intro cur
    rfl
  | cons e rest ih =>
    intro cur
    show leafPaths ((processEntry cur e).1 ++
      (processEntries (processEntry cur e).2 rest).1) = e :: rest
    rw [leafPaths_append, leafPaths_processEntry, ih]
    rfl

/-- C2: for every FileList and base root, the `Leaf` events of the emitted
sequence carry exactly the FileList's paths, in their original order. -/
theorem build_ui_treeview_leaves (base : FsPath) (files : List FsPath) :
    leafPaths (build_ui_treeview base files) = files := by
  rw [build_ui_treeview_eq]
  simp only [List.cons_append, List.append_assoc]
  rw [leafPaths_cons_open, leafPaths_append, leafPaths_processEntries,
    leafPaths_append]
  by_cases h : base.isPrefixOf (processEntries base files).2 = true
  · rw [if_pos h, leafPaths_replicate_close, leafPaths_cons_close]
    simp [leafPaths]
  · rw [if_neg h, leafPaths_cons_close]
    simp [leafPaths]
